import Mathlib

/-!
caddybinserver: archive-backed filesystem and process supervisor

A shallow embedding of `module/binfs.go` and `module/util_process.go`.

* Go strings and byte slices are sequences of bytes (`List Nat`, each value below 256).
* A `[]byte` value is `Option (List Byte)`: `none` is the `nil` slice.
* `int64` values are `Int`; sums the source computes in `int64` go through `wrap64`.
* Go maps are association lists with unique keys; the order of the list is the
  order in which a `range` loop visits the entries (Go leaves that order open).
* A run-time abort (slice bounds, nil dereference) is `Except.error`.
-/

namespace BinServer

/-! ## Machine values -/

abbrev Byte := Nat

abbrev GoString := List Byte

abbrev GoBytes := Option (List Byte)

/-- Byte sequence of an ASCII string literal. -/
def str (s : String) : GoString := s.toList.map Char.toNat

/-- Go `len` of a byte slice; the `nil` slice has length 0. -/
def GoBytes.len : GoBytes → Nat
  | none => 0
  | some l => l.length

/-- Two-complement wrap-around of an `int64` result. -/
def wrap64 (x : Int) : Int :=
  (x + 9223372036854775808) % 18446744073709551616 - 9223372036854775808

/-- Ways in which the Go runtime aborts the calling goroutine. -/
inductive Panic where
  | sliceBounds
  | indexRange
  | nilDeref
  deriving DecidableEq, Repr

deriving instance DecidableEq for Except

/-! ## Go maps -/

abbrev GoMap (K V : Type) := List (K × V)

/-- Map read `m[k]` with the comma-ok result. -/
def mapGet {K V : Type} [DecidableEq K] : GoMap K V → K → Option V
  | [], _ => none
  | (k', v) :: rest, k => if k' = k then some v else mapGet rest k

/-- Builtin `delete(m, k)`. -/
def mapDelete {K V : Type} [DecidableEq K] (m : GoMap K V) (k : K) : GoMap K V :=
  m.filter (fun e => decide (e.1 ≠ k))

/-- Map write `m[k] = v`. -/
def mapSet {K V : Type} [DecidableEq K] : GoMap K V → K → V → GoMap K V
  | [], k, v => [(k, v)]
  | (k', v') :: rest, k, v => if k' = k then (k, v) :: rest else (k', v') :: mapSet rest k v

/-- Key membership, the `ok` of `_, ok := m[k]`. -/
def mapHas {K V : Type} [DecidableEq K] (m : GoMap K V) (k : K) : Bool :=
  (mapGet m k).isSome

/-! ## Standard library: `strings` -/

/-- Go `strings.Replace(s, "/", "\\", -1)`: every byte 47 becomes byte 92. -/
def replaceSlash (s : GoString) : GoString :=
  s.map (fun c => if c = 47 then 92 else c)

/-- Go `strings.Split(s, " ")`: the segments between consecutive bytes 32. -/
def splitSpace : GoString → List GoString
  | [] => [[]]
  | c :: cs =>
    if c = 32 then [] :: splitSpace cs
    else
      match splitSpace cs with
      | [] => [[c]]
      | p :: ps => (c :: p) :: ps

/-! ## Standard library: `path/filepath`

`filepath.Dir` depends on the host. Both hosts the repository names
(`runtime.GOOS == "windows"` and the rest) are modelled after the Go 1.22 sources
(`path/filepath/path.go`, `path_unix.go`, `path_windows.go`). -/

inductive GOOS where
  | unix
  | windows
  deriving DecidableEq, Repr

/-- Go `filepath.Separator`. -/
def separator : GOOS → Byte
  | .unix => 47
  | .windows => 92

/-- Go `os.IsPathSeparator`. -/
def isPathSeparator : GOOS → Byte → Bool
  | .unix, c => c == 47
  | .windows, c => c == 92 || c == 47

/-- Go `filepath.FromSlash`. -/
def fromSlash : GOOS → GoString → GoString
  | .unix, s => s
  | .windows, s => replaceSlash s

/-- Go `toUpper` of `path_windows.go`. -/
def toUpper (c : Byte) : Byte := if 97 ≤ c ∧ c ≤ 122 then c - 32 else c

/-- Go `pathHasPrefixFold` of `path_windows.go`. -/
def pathHasPfxFold (s pfx : GoString) : Bool :=
  if s.length < pfx.length then false
  else if (List.zip pfx s).all (fun e =>
      if isPathSeparator .windows e.1 then isPathSeparator .windows e.2
      else toUpper e.1 == toUpper e.2) then
    if s.length > pfx.length ∧ ¬ isPathSeparator .windows (s.getD pfx.length 0) then false
    else true
  else false

/-- Loop of Go `uncLen`: scans from byte `i` with `count` separators seen. -/
def uncLenFrom : GoString → Nat → Nat → Nat
  | [], i, _ => i
  | c :: cs, i, count =>
    if isPathSeparator .windows c then
      if count + 1 = 2 then i else uncLenFrom cs (i + 1) (count + 1)
    else uncLenFrom cs (i + 1) count

/-- Go `uncLen(path, prefixLen)`. -/
def uncLen (path : GoString) (pfxLen : Nat) : Nat :=
  if pfxLen ≤ path.length then uncLenFrom (path.drop pfxLen) pfxLen 0 else path.length

/-- Go `cutPath`: the part after the first separator, when there is one. -/
def cutPathRest : GoString → Option GoString
  | [] => none
  | c :: cs => if isPathSeparator .windows c then some cs else cutPathRest cs

/-- Go `volumeNameLen`. -/
def volumeNameLen : GOOS → GoString → Nat
  | .unix, _ => 0
  | .windows, path =>
    if path.length ≥ 2 ∧ path.getD 1 0 = 58 then 2
    else if path.length = 0 ∨ ¬ isPathSeparator .windows (path.getD 0 0) then 0
    else if pathHasPfxFold path [92, 92, 46, 92, 85, 78, 67] then uncLen path 8
    else if pathHasPfxFold path [92, 92, 46] ∨ pathHasPfxFold path [92, 92, 63]
        ∨ pathHasPfxFold path [92, 63, 63] then
      if path.length = 3 then 3
      else
        match cutPathRest (path.drop 4) with
        | none => path.length
        | some rest => path.length - rest.length - 1
    else if path.length ≥ 2 ∧ isPathSeparator .windows (path.getD 1 0) then uncLen path 2
    else 0

/-- Go `lazybuf` of `path.go`: `buf = none` is the buffer not yet allocated, whose
content is `path[:w]`; once allocated it has the length of `path` and keeps the bytes
written beyond `w`. -/
structure Lazybuf where
  path : GoString
  buf : Option (List Byte)
  w : Nat
  volAndPath : GoString
  volLen : Nat

/-- Go `lazybuf.index`. -/
def Lazybuf.index (b : Lazybuf) (i : Nat) : Byte :=
  match b.buf with
  | some l => l.getD i 0
  | none => b.path.getD i 0

/-- Go `lazybuf.append`. -/
def Lazybuf.append (b : Lazybuf) (c : Byte) : Lazybuf :=
  match b.buf with
  | none =>
    if b.w < b.path.length ∧ b.path.getD b.w 0 = c then { b with w := b.w + 1 }
    else
      let fresh := b.path.take b.w ++ List.replicate (b.path.length - b.w) 0
      { b with buf := some (fresh.set b.w c), w := b.w + 1 }
  | some l => { b with buf := some (l.set b.w c), w := b.w + 1 }

/-- Go `lazybuf.prepend`. -/
def Lazybuf.prepend (b : Lazybuf) (pfx : List Byte) : Lazybuf :=
  { b with buf := some (pfx ++ (b.buf.getD [])), w := b.w + pfx.length }

/-- Go `lazybuf.string`. -/
def Lazybuf.string (b : Lazybuf) : GoString :=
  match b.buf with
  | none => b.volAndPath.take (b.volLen + b.w)
  | some l => b.volAndPath.take b.volLen ++ l.take b.w

/-- Backtracking of a `..` element in `Clean`, after the first `out.w--`:
`for out.w > dotdot && !IsPathSeparator(out.index(out.w))` with `out.w--`. -/
def backtrack (os : GOOS) (b : Lazybuf) (dotdot : Nat) : Nat → Nat
  | 0 => 0
  | w + 1 =>
    if w + 1 > dotdot ∧ ¬ isPathSeparator os (b.index (w + 1)) then backtrack os b dotdot w
    else w + 1

/-- Copy loop of `Clean`: `for ; r < n && !IsPathSeparator(path[r]); r++`. -/
def copyElem (os : GOOS) (path : GoString) : Nat → Nat → Lazybuf → Nat × Lazybuf
  | 0, r, out => (r, out)
  | fuel + 1, r, out =>
    if r < path.length ∧ ¬ isPathSeparator os (path.getD r 0) then
      copyElem os path fuel (r + 1) (out.append (path.getD r 0))
    else (r, out)

/-- Main loop of `Clean` (`for r < n`); every turn advances `r`, so `n` turns suffice. -/
def cleanLoop (os : GOOS) (path : GoString) (rooted : Bool) :
    Nat → Nat → Nat → Lazybuf → Lazybuf
  | 0, _, _, out => out
  | fuel + 1, r, dotdot, out =>
    let n := path.length
    if r < n then
      if isPathSeparator os (path.getD r 0) then
        cleanLoop os path rooted fuel (r + 1) dotdot out
      else if path.getD r 0 = 46 ∧ (r + 1 = n ∨ isPathSeparator os (path.getD (r + 1) 0)) then
        cleanLoop os path rooted fuel (r + 1) dotdot out
      else if path.getD r 0 = 46 ∧ path.getD (r + 1) 0 = 46
          ∧ (r + 2 = n ∨ isPathSeparator os (path.getD (r + 2) 0)) then
        if out.w > dotdot then
          cleanLoop os path rooted fuel (r + 2) dotdot
            { out with w := backtrack os out dotdot (out.w - 1) }
        else if ¬ rooted then
          let out1 := if out.w > 0 then out.append (separator os) else out
          let out2 := (out1.append 46).append 46
          cleanLoop os path rooted fuel (r + 2) out2.w out2
        else
          cleanLoop os path rooted fuel (r + 2) dotdot out
      else
        let out1 :=
          if (rooted ∧ out.w ≠ 1) ∨ (¬ rooted ∧ out.w ≠ 0) then out.append (separator os)
          else out
        let res := copyElem os path n r out1
        cleanLoop os path rooted fuel res.1 dotdot res.2
    else out

/-- First path element holds a colon (loop of Go `postClean`). -/
def firstElemHasColon : List Byte → Bool
  | [] => false
  | c :: cs => if isPathSeparator .windows c then false
    else if c = 58 then true else firstElemHasColon cs

/-- Go `postClean`: a no-op except on Windows. -/
def postClean : GOOS → Lazybuf → Lazybuf
  | .unix, out => out
  | .windows, out =>
    match out.buf with
    | none => out
    | some l =>
      if out.volLen ≠ 0 then out
      else if firstElemHasColon l then out.prepend [46, 92]
      else if l.length ≥ 3 ∧ isPathSeparator .windows (l.getD 0 0) ∧ l.getD 1 0 = 63
          ∧ l.getD 2 0 = 63 then out.prepend [92, 46]
      else out

/-- Go `filepath.Clean`. -/
def filepathClean (os : GOOS) (originalPath : GoString) : GoString :=
  let volLen := volumeNameLen os originalPath
  let path := originalPath.drop volLen
  if path = [] then
    if volLen > 1 ∧ isPathSeparator os (originalPath.getD 0 0)
        ∧ isPathSeparator os (originalPath.getD 1 0) then fromSlash os originalPath
    else originalPath ++ [46]
  else
    let rooted := isPathSeparator os (path.getD 0 0)
    let out0 : Lazybuf :=
      { path := path, buf := none, w := 0, volAndPath := originalPath, volLen := volLen }
    let out1 := if rooted then out0.append (separator os) else out0
    let start := if rooted then 1 else 0
    let out2 := cleanLoop os path rooted path.length start start out1
    let out3 := if out2.w = 0 then out2.append 46 else out2
    fromSlash os (postClean os out3).string

/-- Loop of Go `filepath.Dir`, on `j = i + 1`:
`for i >= len(vol) && !IsPathSeparator(path[i])` with `i--`. -/
def dirEnd (os : GOOS) (path : GoString) (volLen : Nat) : Nat → Nat
  | 0 => 0
  | j + 1 =>
    if j + 1 > volLen ∧ ¬ isPathSeparator os (path.getD j 0) then dirEnd os path volLen j
    else j + 1

/-- Go `filepath.Dir`. -/
def filepathDir (os : GOOS) (path : GoString) : GoString :=
  let vol := fromSlash os (path.take (volumeNameLen os path))
  let j := dirEnd os path vol.length path.length
  let dir := filepathClean os ((path.take j).drop vol.length)
  if dir = [46] ∧ vol.length > 2 then vol else vol ++ dir

/-! ## `binfs.go`: the virtual filesystem -/

/-- Go `BinFS`. The maps are taken as allocated, as `initResource` leaves them before
any write; reading a `nil` map behaves as reading an empty one. -/
structure BinFS where
  Inited : Bool
  Contents : GoMap GoString GoBytes
  Paths : GoMap GoString Int
  deriving DecidableEq, Repr

/-- Go `BinFSFile`. The back pointer `Fs` is never read by the operations below
and is left out. -/
structure BinFSFile where
  FilePath : GoString
  Bytes : GoBytes
  Offset : Int
  FileSize : Int
  deriving DecidableEq, Repr

/-- Errors of the filesystem operations. -/
inductive FsError where
  | unableToOpen
  deriving DecidableEq, Repr

/-- Go `BinFS.innerOpen`. -/
def BinFS.innerOpen (binfs : BinFS) (path : GoString) : Except FsError BinFSFile :=
  match mapGet binfs.Contents path with
  | some bytes =>
    .ok { FilePath := path, Bytes := bytes, Offset := 0, FileSize := (bytes.len : Int) }
  | none =>
    if mapHas binfs.Paths path then
      .ok { FilePath := path, Bytes := none, Offset := 0, FileSize := 0 }
    else .error .unableToOpen

/-- Go `BinFS.Open`. -/
def BinFS.Open (binfs : BinFS) (path : GoString) : Except FsError BinFSFile :=
  binfs.innerOpen path

/-- Go `BinFS.Stat`. -/
def BinFS.Stat (binfs : BinFS) (path : GoString) : Except FsError BinFSFile :=
  binfs.innerOpen path

/-- Go `BinFS.ReadFile`. -/
def BinFS.ReadFile (binfs : BinFS) (path : GoString) : Except FsError GoBytes :=
  match binfs.innerOpen path with
  | .error err => .error err
  | .ok file => .ok file.Bytes

/-- Go `BinFSFile.IsDir`. -/
def BinFSFile.IsDir (file : BinFSFile) : Bool := file.Bytes.isNone

/-- Go `BinFSFile.Size`. -/
def BinFSFile.Size (file : BinFSFile) : Int := (file.Bytes.len : Int)

/-- Go slice expression `b[off:]`: aborts unless `0 <= off <= len(b)`. -/
def sliceFrom (b : GoBytes) (off : Int) : Except Panic (List Byte) :=
  if 0 ≤ off ∧ off ≤ (b.len : Int) then .ok ((b.getD []).drop off.toNat)
  else .error .sliceBounds

/-- Go `bytes.NewBuffer(buf).Read(p)`: the new contents of `p`, the count, and
whether `io.EOF` is returned. -/
def bufferRead (buf p : List Byte) : List Byte × Nat × Bool :=
  if buf = [] then
    if p.length = 0 then (p, 0, false) else (p, 0, true)
  else
    let n := min p.length buf.length
    (buf.take n ++ p.drop n, n, false)

/-- Outcome of `Read`: the handle afterwards, the buffer afterwards, `n`, and `err == io.EOF`. -/
structure ReadResult where
  file : BinFSFile
  p : List Byte
  n : Int
  eof : Bool
  deriving DecidableEq, Repr

/-- Go `BinFSFile.Read`. -/
def BinFSFile.Read (file : BinFSFile) (p : List Byte) : Except Panic ReadResult :=
  match sliceFrom file.Bytes file.Offset with
  | .error e => .error e
  | .ok rest =>
    let r := bufferRead rest p
    let file1 :=
      if r.2.2 = false then
        if wrap64 (file.Offset + (p.length : Int)) < file.FileSize then
          { file with Offset := wrap64 (file.Offset + (p.length : Int)) }
        else { file with Offset := file.FileSize }
      else file
    .ok { file := file1, p := r.1, n := (r.2.1 : Int), eof := r.2.2 }

/-- Go `min_int64`. -/
def min_int64 (a b : Int) : Int := if a < b then a else b

/-- Go `io.SeekStart`. -/
def SeekStart : Int := 0

/-- Go `io.SeekCurrent`. -/
def SeekCurrent : Int := 1

/-- Go `io.SeekEnd`. -/
def SeekEnd : Int := 2

/-- Go `BinFSFile.Seek`: the handle afterwards and the returned position. -/
def BinFSFile.Seek (file : BinFSFile) (offset : Int) (whence : Int) : BinFSFile × Int :=
  let file1 :=
    if whence = SeekStart then
      { file with Offset := min_int64 file.FileSize offset }
    else if whence = SeekCurrent then
      { file with Offset := min_int64 file.FileSize (wrap64 (file.Offset + offset)) }
    else if whence = SeekEnd then
      { file with Offset := min_int64 file.FileSize (wrap64 (file.FileSize + offset)) }
    else file
  (file1, file1.Offset)

/-- Go `BinFS.addFile`, on host `os`. -/
def BinFS.addFile (os : GOOS) (fs : BinFS) (filePath : GoString) (content : GoBytes) : BinFS :=
  let filePath := replaceSlash filePath
  let fs1 := { fs with Contents := mapSet fs.Contents filePath content }
  let path := filepathDir os filePath
  if path.length > 0 then { fs1 with Paths := mapSet fs1.Paths path 1 } else fs1

/-- Go `BinFS.hasPath`. -/
def BinFS.hasPath (fs : BinFS) (path : GoString) : Bool := mapHas fs.Paths path

/-- What reading one archive member gives: `f.Open()` fails, `io.ReadAll` fails,
or the bytes. -/
inductive EntryRead where
  | openFails
  | readFails
  | data (fdata : List Byte)
  deriving DecidableEq, Repr

/-- What the bundle `data.bin` gives: `os.ReadFile` fails, `zip.NewReader` fails, or
the members `r.File` in archive order. -/
inductive Bundle where
  | missing
  | badArchive
  | archive (files : List (GoString × EntryRead))
  deriving DecidableEq, Repr

/-- Errors `initResource` returns. -/
inductive LoadError where
  | resourceNotFound
  | failedLoadPacked
  | failedOpenZipped (name : GoString)
  | cannotReadZipped (name : GoString)
  deriving DecidableEq, Repr

/-- Loop `for _, f := range r.File` of `initResource`. -/
def loadFiles (os : GOOS) : BinFS → List (GoString × EntryRead) → BinFS × Option LoadError
  | fs, [] => (fs, none)
  | fs, (name, .openFails) :: _ => (fs, some (.failedOpenZipped name))
  | fs, (name, .readFails) :: _ => (fs, some (.cannotReadZipped name))
  | fs, (name, .data fdata) :: rest => loadFiles os (fs.addFile os name (some fdata)) rest

/-- Go `BinFS.initResource`, from the `Inited` test on: the filesystem afterwards and
the error (`none` is `nil`). The companion-process launch and the signal handler
before that test do not touch the filesystem. -/
def BinFS.initResource (os : GOOS) (fs : BinFS) (bundle : Bundle) : BinFS × Option LoadError :=
  if fs.Inited then (fs, none)
  else
    let fs1 : BinFS := { Inited := true, Contents := [], Paths := [] }
    match bundle with
    | .missing => (fs1, some .resourceNotFound)
    | .badArchive => (fs1, some .failedLoadPacked)
    | .archive files => loadFiles os fs1 files

/-- A sequence of `addFile` calls, one per entry, in order. -/
def addFiles (os : GOOS) (fs : BinFS) (entries : List (GoString × GoBytes)) : BinFS :=
  entries.foldl (fun acc e => acc.addFile os e.1 e.2) fs

/-- The filesystem right after `make` of both maps. -/
def emptyFS : BinFS := { Inited := true, Contents := [], Paths := [] }

/-- One `Read` of a sequence: the offset when the call is made, the count returned,
and whether end-of-file was signalled. -/
structure ReadEvent where
  offsetBefore : Int
  n : Int
  eof : Bool
  deriving DecidableEq, Repr

/-- Successive `Read` calls on one handle, one per buffer. -/
def readSeq : BinFSFile → List (List Byte) → Except Panic (BinFSFile × List ReadEvent)
  | file, [] => .ok (file, [])
  | file, p :: rest =>
    match file.Read p with
    | .error e => .error e
    | .ok r =>
      match readSeq r.file rest with
      | .error e => .error e
      | .ok (file2, evs) =>
        .ok (file2, { offsetBefore := file.Offset, n := r.n, eof := r.eof } :: evs)

/-! ## `util_process.go`: the process registry -/

/-- Go `os.Process`, as far as the registry looks at it. -/
structure Process where
  Pid : Int
  deriving DecidableEq, Repr

/-- Go `exec.Cmd`: `Process` is `nil` (`none`) until the process has been started. -/
structure Cmd where
  Args : List GoString
  Dir : GoString
  Process : Option Process
  Stdout : List Byte
  Stderr : List Byte
  deriving DecidableEq, Repr

/-- Go `runningCmds`. -/
abbrev Registry := GoMap GoString Cmd

/-- Go `exec.Command(name, arg...)`: `Args` holds the name followed by the arguments. -/
def execCommand (name : GoString) (arg : List GoString) : Cmd :=
  { Args := name :: arg, Dir := [], Process := none, Stdout := [], Stderr := [] }

/-- What `cmd.Run()` does: the launch fails (no process is created), or the process
runs to its exit, with its captured output and whether `Run` returns an error. -/
inductive RunOutcome where
  | startFailed
  | exited (proc : Process) (out errOut : List Byte) (failed : Bool)
  deriving DecidableEq, Repr

/-- Effect of `cmd.Run()` on the command record, and whether it returns an error. -/
def cmdRun (cmd : Cmd) : RunOutcome → Cmd × Bool
  | .startFailed => (cmd, true)
  | .exited proc out errOut failed =>
    ({ cmd with Process := some proc, Stdout := out, Stderr := errOut }, failed)

/-- Go `executeCmd`. The record `cmd` is the one the registry holds under `cmdID` (the
map stores the pointer), so what `Run` does to it shows in that entry while it is there. -/
def executeCmd (reg : Registry) (cmd : Cmd) (cmdID : GoString) (async : Bool)
    (run : RunOutcome) : Registry × Bool :=
  let r := cmdRun cmd run
  let reg1 := if mapHas reg cmdID then mapSet reg cmdID r.1 else reg
  (if async then mapDelete reg1 cmdID else reg1, r.2)

/-- Go `startCommand`, up to the return: `cmdID` is what `uuid()` gives and `run` what
`cmd.Run()` does. With `async` the launch is left to the goroutine (a later
`executeCmd`), so the record is returned as registered. The result is the registry,
the identifier and whether an error is returned. -/
def startCommand (reg : Registry) (command dir : GoString) (async : Bool)
    (cmdID : GoString) (run : RunOutcome) : Except Panic (Registry × GoString × Bool) :=
  match splitSpace command with
  | [] => .error .indexRange
  | name :: args =>
    let cmd := { execCommand name args with Dir := dir }
    let reg1 := mapSet reg cmdID cmd
    if async then .ok (reg1, cmdID, false)
    else
      let r := executeCmd reg1 cmd cmdID async run
      .ok (r.1, cmdID, r.2)

/-- Go `cmd.Process.Kill()`: a `nil` process pointer is dereferenced; otherwise
`killErr` says whether the kill returns an error. -/
def processKill (killErr : Process → Bool) : Option Process → Except Panic Bool
  | none => .error .nilDeref
  | some proc => .ok (killErr proc)

/-- Go `terminateCommand`: the registry afterwards and the boolean returned. -/
def terminateCommand (killErr : Process → Bool) (reg : Registry) (cmdID : GoString) :
    Except Panic (Registry × Bool) :=
  match mapGet reg cmdID with
  | none => .ok (reg, false)
  | some cmd =>
    match processKill killErr cmd.Process with
    | .error e => .error e
    | .ok true => .ok (reg, false)
    | .ok false => .ok (mapDelete reg cmdID, true)

/-- Loop `for cmdID, cmd := range runningCmds` of `terminateAllCommands`, over the
entries still to visit. -/
def terminateLoop (killErr : Process → Bool) :
    List (GoString × Cmd) → Registry → Except Panic (Registry × Bool)
  | [], reg => .ok (reg, true)
  | (cmdID, cmd) :: rest, reg =>
    match processKill killErr cmd.Process with
    | .error e => .error e
    | .ok true => .ok (reg, false)
    | .ok false => terminateLoop killErr rest (mapDelete reg cmdID)

/-- Go `terminateAllCommands`: the registry afterwards and the boolean returned. -/
def terminateAllCommands (killErr : Process → Bool) (reg : Registry) :
    Except Panic (Registry × Bool) :=
  terminateLoop killErr reg reg

/-- Go `getCommandOutput`. -/
def getCommandOutput (reg : Registry) (cmdID : GoString) : Option (List Byte) :=
  (mapGet reg cmdID).map (fun cmd => cmd.Stdout)


/-! ## Predicates and auxiliary functions of the statements -/

/-- Every stored path has its `filepath.Dir` registered, when that is non-empty. -/
def ParentRegistered (os : GOOS) (fs : BinFS) : Prop :=
  ∀ p : GoString, mapHas fs.Contents p = true → (filepathDir os p).length > 0 →
    mapHas fs.Paths (filepathDir os p) = true

/-- The members read before the first unreadable one, as `addFile` arguments. -/
def readablePart : List (GoString × EntryRead) → List (GoString × GoBytes)
  | (name, .data fdata) :: rest => (name, some fdata) :: readablePart rest
  | _ => []

/-! ## Concrete states used in the examples -/

/-- A handle on a 3-byte file, at offset 0. -/
def seekHandle : BinFSFile := { FilePath := str "f", Bytes := some [1, 2, 3], Offset := 0, FileSize := 3 }

/-- The scenario bundle: `dir/a.txt = "hello"`, `dir/b.txt = "world"`, loaded on host `os`. -/
def fsScenario (os : GOOS) : BinFS :=
  addFiles os emptyFS
    [(str "dir/a.txt", some (str "hello")), (str "dir/b.txt", some (str "world"))]

/-- A filesystem on which `initResource` has not run yet. -/
def freshFS : BinFS := { Inited := false, Contents := [], Paths := [] }

/-- A bundle whose second member cannot be read. -/
def bundlePartial : Bundle :=
  .archive [(str "a.txt", .data (str "hello")), (str "b.txt", .readFails)]

/-- Two tracked processes: kill of the first (pid 1) fails, kill of the second works. -/
def regTwo : Registry :=
  [(str "A", { execCommand (str "server") [] with Process := some { Pid := 1 } }),
   (str "B", { execCommand (str "helper") [] with Process := some { Pid := 2 } })]

/-- Kill outcome for `regTwo`: only the process with pid 1 cannot be killed. -/
def killFailsPid1 (proc : Process) : Bool := proc.Pid == 1

/-- Kill outcome under which every kill succeeds. -/
def killAlwaysWorks (_ : Process) : Bool := false

/-- The registry a synchronous start of a missing program leaves behind. -/
def regFailedLaunch : Registry :=
  [(str "id1", { execCommand (str "nosuchprogram") [] with Dir := str "." })]

/-! ## Arithmetic and list lemmas -/

theorem wrap64_of_range (x : Int) (h0 : -9223372036854775808 ≤ x)
    (h1 : x < 9223372036854775808) : wrap64 x = x := by
  unfold wrap64
  have h : (x + 9223372036854775808) % 18446744073709551616 = x + 9223372036854775808 := by
    apply Int.emod_eq_of_lt <;> omega
  omega

theorem GoBytes.len_eq_getD (b : GoBytes) : b.len = (b.getD []).length := by
  cases b <;> rfl

/-- What one `Read` does on a handle whose offset lies within its bytes. -/
theorem Read_spec (file : BinFSFile) (p : List Byte)
    (h0 : 0 ≤ file.Offset) (h1 : file.Offset ≤ file.FileSize)
    (h2 : file.FileSize = (file.Bytes.len : Int))
    (h3 : file.FileSize + (p.length : Int) < 9223372036854775808) :
    ∃ r, file.Read p = .ok r
      ∧ r.n = min (p.length : Int) (file.FileSize - file.Offset)
      ∧ r.p = ((file.Bytes.getD []).drop file.Offset.toNat).take r.n.toNat ++ p.drop r.n.toNat
      ∧ r.file = { file with Offset := file.Offset + r.n }
      ∧ (r.eof = true ↔ (p ≠ [] ∧ file.Offset = file.FileSize)) := by
  obtain ⟨fp, bytes, off, size⟩ := file
  simp only at h0 h1 h2 h3
  obtain ⟨k, hk0⟩ := Int.eq_ofNat_of_zero_le h0
  subst hk0
  subst h2
  rw [GoBytes.len_eq_getD] at h1 h3 ⊢
  have hk : k ≤ (bytes.getD []).length := by exact_mod_cast h1
  have hlen : ((bytes.getD []).drop k).length = (bytes.getD []).length - k := List.length_drop _ _
  have hw : wrap64 ((k : Int) + (p.length : Int)) = (k : Int) + (p.length : Int) := by
    apply wrap64_of_range <;> omega
  simp only [BinFSFile.Read, sliceFrom, GoBytes.len_eq_getD, h0, h1, and_self, if_true,
    Int.toNat_ofNat, hw]
  by_cases hrest : (bytes.getD []).drop k = []
  · have hkk : (bytes.getD []).length - k = 0 := by rw [← hlen, hrest]; rfl
    have hkeq : k = (bytes.getD []).length := by omega
    by_cases hp : p.length = 0
    · have hpnil : p = [] := List.length_eq_zero.mp hp
      subst hpnil
      refine ⟨_, rfl, ?_⟩
      simp [bufferRead, hrest, ← hkeq]
    · have hpne : p ≠ [] := fun h => hp (by rw [h]; rfl)
      refine ⟨_, rfl, ?_⟩
      simp [bufferRead, hrest, hp, hpne, ← hkeq]
  · have hpos : 0 < (bytes.getD []).length - k := by
      rw [← hlen]; exact List.length_pos.mpr hrest
    refine ⟨_, rfl, ?_⟩
    simp only [bufferRead, hrest, if_false, hlen]
    rcases Nat.le_total p.length ((bytes.getD []).length - k) with hle | hle
    · have hleI : (p.length : Int) ≤ ((bytes.getD []).length : Int) - (k : Int) := by omega
      rw [Nat.min_eq_left hle, min_eq_left hleI]
      refine ⟨rfl, ?_, ?_, ?_⟩
      · simp only [Int.toNat_ofNat]
      · by_cases hlt : (k : Int) + (p.length : Int) < ((bytes.getD []).length : Int)
        · simp only [hlt, if_true]
        · have hkl : ((bytes.getD []).length : Int) = (k : Int) + (p.length : Int) := by omega
          simp only [hkl, lt_irrefl, if_false, if_true]
      · simp only [Bool.false_eq_true, false_iff, not_and]
        intro _
        omega
    · have hleI : ((bytes.getD []).length : Int) - (k : Int) ≤ (p.length : Int) := by omega
      have hcast : (((bytes.getD []).length - k : Nat) : Int)
          = ((bytes.getD []).length : Int) - (k : Int) := by omega
      rw [Nat.min_eq_right hle, min_eq_right hleI]
      refine ⟨hcast, ?_, ?_, ?_⟩
      · simp only [Int.toNat_ofNat]
      · have hlt : ¬ ((k : Int) + (p.length : Int) < ((bytes.getD []).length : Int)) := by omega
        simp only [hlt, if_false, if_true, BinFSFile.mk.injEq, true_and, and_true]
        omega
      · simp only [Bool.false_eq_true, false_iff, not_and]
        intro _
        omega

/-- What a sequence of `Read` calls with non-empty buffers does on a handle whose
offset lies within its bytes. -/
theorem readSeq_spec (bufs : List (List Byte)) :
    ∀ (file : BinFSFile), 0 ≤ file.Offset → file.Offset ≤ file.FileSize →
      file.FileSize = (file.Bytes.len : Int) →
      (∀ p ∈ bufs, p ≠ []) →
      (∀ p ∈ bufs, file.FileSize + (p.length : Int) < 9223372036854775808) →
      ∃ file2 evs, readSeq file bufs = .ok (file2, evs)
        ∧ evs.length = bufs.length
        ∧ file2.Offset ≤ file.FileSize
        ∧ (evs.map (fun e => e.n)).sum = file2.Offset - file.Offset
        ∧ (∀ e ∈ evs, 0 ≤ e.n)
        ∧ (∀ e ∈ evs, (e.eof = true ↔ e.offsetBefore = file.FileSize)) := by
  induction bufs with
  | nil =>
    intro file _ h1 _ _ _
    exact ⟨file, [], rfl, rfl, h1, by simp, by simp, by simp⟩
  | cons p rest ih =>
    intro file h0 h1 h2 hne hsz
    obtain ⟨r, hr, hn, _, hfile, heof⟩ :=
      Read_spec file p h0 h1 h2 (hsz p (List.mem_cons_self _ _))
    have hn0 : 0 ≤ r.n := by
      rw [hn]; exact le_min (Int.ofNat_nonneg _) (by omega)
    have hnle : r.n ≤ file.FileSize - file.Offset := by
      rw [hn]; exact min_le_right _ _
    have hoff : r.file.Offset = file.Offset + r.n := by rw [hfile]
    have hsize : r.file.FileSize = file.FileSize := by rw [hfile]
    have hbytes : r.file.Bytes = file.Bytes := by rw [hfile]
    obtain ⟨file2, evs, hrun, hlen, hle, hsum, hpos, hev⟩ :=
      ih r.file (by omega) (by omega) (by rw [hsize, hbytes]; exact h2)
        (fun q hq => hne q (List.mem_cons_of_mem _ hq))
        (fun q hq => by rw [hsize]; exact hsz q (List.mem_cons_of_mem _ hq))
    refine ⟨file2, { offsetBefore := file.Offset, n := r.n, eof := r.eof } :: evs, ?_, ?_, ?_,
      ?_, ?_, ?_⟩
    · simp only [readSeq, hr, hrun]
    · simp only [List.length_cons, hlen]
    · rw [← hsize]; exact hle
    · simp only [List.map_cons, List.sum_cons, hsum, hoff]
      omega
    · intro e he
      rcases List.mem_cons.mp he with rfl | he
      · exact hn0
      · exact hpos e he
    · intro e he
      rcases List.mem_cons.mp he with rfl | he
      · simp only [heof, ne_eq, hne p (List.mem_cons_self _ _), not_false_eq_true, true_and]
      · rw [← hsize]; exact hev e he

/-- A handle returned by `innerOpen` starts at offset 0 with `FileSize = len(Bytes)`. -/
theorem innerOpen_fresh (binfs : BinFS) (path : GoString) (file : BinFSFile)
    (h : binfs.innerOpen path = .ok file) :
    file.Offset = 0 ∧ file.FileSize = (file.Bytes.len : Int) := by
  unfold BinFS.innerOpen at h
  split at h
  · cases h; exact ⟨rfl, rfl⟩
  · split at h
    · cases h; exact ⟨rfl, rfl⟩
    · cases h

/-! ## Map lemmas -/

theorem mapGet_cons {K V : Type} [DecidableEq K] (a : K) (b : V) (rest : GoMap K V) (k : K) :
    mapGet ((a, b) :: rest) k = if a = k then some b else mapGet rest k := rfl

theorem mapGet_mapSet_same {K V : Type} [DecidableEq K] (m : GoMap K V) (k : K) (v : V) :
    mapGet (mapSet m k v) k = some v := by
  induction m with
  | nil => simp [mapSet, mapGet_cons]
  | cons e rest ih =>
    obtain ⟨a, b⟩ := e
    by_cases hak : a = k
    · simp [mapSet, hak, mapGet_cons]
    · simp [mapSet, hak, mapGet_cons, ih]

theorem mapGet_mapSet_other {K V : Type} [DecidableEq K] (m : GoMap K V) (k k2 : K) (v : V)
    (hne : k2 ≠ k) : mapGet (mapSet m k v) k2 = mapGet m k2 := by
  have hne2 : ¬ k = k2 := fun h => hne h.symm
  induction m with
  | nil => simp [mapSet, mapGet_cons, hne2, mapGet]
  | cons e rest ih =>
    obtain ⟨a, b⟩ := e
    by_cases hak : a = k
    · subst hak
      simp [mapSet, mapGet_cons, hne2]
    · simp [mapSet, hak, mapGet_cons, ih]

theorem mapHas_mapSet {K V : Type} [DecidableEq K] (m : GoMap K V) (k k2 : K) (v : V) :
    mapHas (mapSet m k v) k2 = true ↔ (k2 = k ∨ mapHas m k2 = true) := by
  unfold mapHas
  by_cases h : k2 = k
  · subst h; simp [mapGet_mapSet_same]
  · simp [mapGet_mapSet_other m k k2 v h, h]

/-! ## Filesystem lemmas -/

theorem addFile_Contents (os : GOOS) (fs : BinFS) (filePath : GoString) (content : GoBytes) :
    (fs.addFile os filePath content).Contents = mapSet fs.Contents (replaceSlash filePath) content := by
  unfold BinFS.addFile
  simp only
  split <;> rfl

theorem addFile_Paths (os : GOOS) (fs : BinFS) (filePath : GoString) (content : GoBytes) :
    (fs.addFile os filePath content).Paths
      = if (filepathDir os (replaceSlash filePath)).length > 0
        then mapSet fs.Paths (filepathDir os (replaceSlash filePath)) 1 else fs.Paths := by
  unfold BinFS.addFile
  simp only
  split <;> rfl

theorem addFiles_cons (os : GOOS) (fs : BinFS) (e : GoString × GoBytes)
    (rest : List (GoString × GoBytes)) :
    addFiles os fs (e :: rest) = addFiles os (fs.addFile os e.1 e.2) rest := rfl

/-- Keys no entry normalizes to keep their content through a load. -/
theorem addFiles_Contents_other (os : GOOS) (entries : List (GoString × GoBytes)) :
    ∀ (fs : BinFS) (k : GoString), k ∉ entries.map (fun e => replaceSlash e.1) →
      mapGet (addFiles os fs entries).Contents k = mapGet fs.Contents k := by
  induction entries with
  | nil => intro fs k _; rfl
  | cons e rest ih =>
    intro fs k hk
    simp only [List.map_cons, List.mem_cons, not_or] at hk
    rw [addFiles_cons, ih _ k hk.2, addFile_Contents, mapGet_mapSet_other _ _ _ _ hk.1]

/-- An entry whose normalized path no other entry shares is stored under that path. -/
theorem addFiles_Contents_mem (os : GOOS) (entries : List (GoString × GoBytes)) :
    ∀ (fs : BinFS), (entries.map (fun e => replaceSlash e.1)).Nodup →
      ∀ e ∈ entries, mapGet (addFiles os fs entries).Contents (replaceSlash e.1) = some e.2 := by
  induction entries with
  | nil => intro fs _ e he; cases he
  | cons x rest ih =>
    intro fs hd e he
    simp only [List.map_cons, List.nodup_cons] at hd
    rw [addFiles_cons]
    rcases List.mem_cons.mp he with rfl | he
    · rw [addFiles_Contents_other os rest _ _ hd.1, addFile_Contents, mapGet_mapSet_same]
    · exact ih _ hd.2 e he

theorem ReadFile_of_Contents (binfs : BinFS) (path : GoString) (bytes : GoBytes)
    (h : mapGet binfs.Contents path = some bytes) : binfs.ReadFile path = .ok bytes := by
  simp [BinFS.ReadFile, BinFS.innerOpen, h]

theorem addFile_ParentRegistered (os : GOOS) (fs : BinFS) (filePath : GoString)
    (content : GoBytes) (h : ParentRegistered os fs) :
    ParentRegistered os (fs.addFile os filePath content) := by
  intro p hp hlen
  rw [addFile_Contents] at hp
  rw [addFile_Paths]
  rcases (mapHas_mapSet _ _ _ _).mp hp with rfl | hold
  · simp only [hlen, if_true]
    exact (mapHas_mapSet _ _ _ _).mpr (Or.inl rfl)
  · have hreg := h p hold hlen
    split
    · exact (mapHas_mapSet _ _ _ _).mpr (Or.inr hreg)
    · exact hreg

theorem addFiles_ParentRegistered (os : GOOS) (entries : List (GoString × GoBytes)) :
    ∀ fs : BinFS, ParentRegistered os fs → ParentRegistered os (addFiles os fs entries) := by
  induction entries with
  | nil => intro fs h; exact h
  | cons e rest ih =>
    intro fs h
    rw [addFiles_cons]
    exact ih _ (addFile_ParentRegistered os fs e.1 e.2 h)

theorem loadFiles_error (os : GOOS) (files : List (GoString × EntryRead)) :
    ∀ (fs : BinFS) (err : LoadError), (loadFiles os fs files).2 = some err →
      (loadFiles os fs files).1 = addFiles os fs (readablePart files) := by
  induction files with
  | nil => intro fs err h; cases h
  | cons f rest ih =>
    intro fs err h
    obtain ⟨name, rd⟩ := f
    cases rd with
    | openFails => rfl
    | readFails => rfl
    | data fdata =>
      simp only [loadFiles] at h ⊢
      rw [ih _ err h]
      rfl

theorem addFiles_Inited (os : GOOS) (entries : List (GoString × GoBytes)) :
    ∀ fs : BinFS, (addFiles os fs entries).Inited = fs.Inited := by
  induction entries with
  | nil => intro fs; rfl
  | cons e rest ih =>
    intro fs
    rw [addFiles_cons, ih]
    unfold BinFS.addFile
    simp only
    split <;> rfl

theorem initResource_of_Inited (os : GOOS) (fs : BinFS) (bundle : Bundle)
    (h : fs.Inited = true) : fs.initResource os bundle = (fs, none) := by
  unfold BinFS.initResource
  rw [if_pos h]

/-! ## File handle and process registry lemmas -/

/-- The position `Seek` stores and returns never exceeds `FileSize`, whatever the offset
and for each of the three `whence` values. -/
theorem Seek_le_size (file : BinFSFile) (offset whence : Int)
    (hw : whence = SeekStart ∨ whence = SeekCurrent ∨ whence = SeekEnd) :
    (file.Seek offset whence).2 ≤ file.FileSize
      ∧ (file.Seek offset whence).1.Offset = (file.Seek offset whence).2 := by
  refine ⟨?_, rfl⟩
  have hmin : ∀ x : Int, min_int64 file.FileSize x ≤ file.FileSize := by
    intro x
    unfold min_int64
    split <;> omega
  rcases hw with h | h | h <;> subst h <;>
    simp [BinFSFile.Seek, SeekStart, SeekCurrent, SeekEnd, hmin]

/-- On a record that has a process, `terminateCommand` removes it and returns `true`
when the kill works and leaves the registry alone and returns `false` when it fails; for
an absent identifier it returns `false`. -/
theorem terminateCommand_with_process (killErr : Process → Bool) (reg : Registry)
    (cmdID : GoString) :
    (mapGet reg cmdID = none → terminateCommand killErr reg cmdID = .ok (reg, false))
      ∧ (∀ cmd proc, mapGet reg cmdID = some cmd → cmd.Process = some proc →
          terminateCommand killErr reg cmdID
            = if killErr proc then .ok (reg, false) else .ok (mapDelete reg cmdID, true)) := by
  refine ⟨fun h => ?_, fun cmd proc h hp => ?_⟩
  · simp [terminateCommand, h]
  · cases hk : killErr proc <;> simp [terminateCommand, h, hp, processKill, hk]

/-- When every record has a process, the sweep of `terminateAllCommands` returns `true`
exactly when no kill among the records still to visit fails. -/
theorem terminateLoop_result (killErr : Process → Bool) (todo : List (GoString × Cmd)) :
    ∀ reg : Registry, (∀ e ∈ todo, e.2.Process ≠ none) →
      ∃ reg2 b, terminateLoop killErr todo reg = .ok (reg2, b)
        ∧ (b = true ↔ ∀ e ∈ todo, ∀ proc, e.2.Process = some proc → killErr proc = false) := by
  induction todo with
  | nil => intro reg _; exact ⟨reg, true, rfl, by simp⟩
  | cons e rest ih =>
    intro reg hall
    obtain ⟨cmdID, cmd⟩ := e
    have hproc := hall (cmdID, cmd) (List.mem_cons_self _ _)
    cases hp : cmd.Process with
    | none => exact absurd hp hproc
    | some proc =>
      cases hk : killErr proc with
      | true =>
        refine ⟨reg, false, by simp [terminateLoop, hp, processKill, hk], ?_⟩
        simp only [Bool.false_eq_true, false_iff, not_forall]
        exact ⟨(cmdID, cmd), List.mem_cons_self _ _, proc, hp, by simp [hk]⟩
      | false =>
        obtain ⟨reg2, b, hrun, hb⟩ :=
          ih (mapDelete reg cmdID) (fun x hx => hall x (List.mem_cons_of_mem _ hx))
        refine ⟨reg2, b, by simp [terminateLoop, hp, processKill, hk, hrun], ?_⟩
        rw [hb]
        constructor
        · intro h x hx q hq
          rcases List.mem_cons.mp hx with rfl | hx
          · rw [hp] at hq; cases hq; exact hk
          · exact h x hx q hq
        · intro h x hx q hq
          exact h x (List.mem_cons_of_mem _ hx) q hq

/-! ## File handle: `Seek` and `Read` -/

/-- C1. `Seek` has no lower clamp: on a 3-byte handle `Seek(-5, SeekStart)` returns and
stores -5 rather than 0, a relative seek whose `int64` sum overflows stores a negative
position too, and the next `Read` on such a handle aborts on its slice bounds. -/
theorem Seek_below_zero_is_stored :
    (seekHandle.Seek (-5) SeekStart).2 = -5
      ∧ (seekHandle.Seek (-5) SeekStart).1.Offset = -5
      ∧ (seekHandle.Seek (-1) SeekEnd).2 = 2
      ∧ (seekHandle.Seek 7 SeekStart).2 = 3
      ∧ ((seekHandle.Seek 3 SeekStart).1.Seek 9223372036854775807 SeekCurrent).2
          = -9223372036854775806
      ∧ (seekHandle.Seek (-5) SeekStart).1.Read [0] = .error .sliceBounds := by
  decide

/-- C2. On a handle with `0 <= Offset <= FileSize = len(Bytes)`, `Read(p)` returns
`n = min(len(p), FileSize - Offset)`, puts `Bytes[Offset .. Offset+n)` in the front of `p`
(the rest of `p` is untouched) and advances `Offset` by exactly `n`. -/
theorem Read_copies_and_advances (file : BinFSFile) (p : List Byte)
    (h0 : 0 ≤ file.Offset) (h1 : file.Offset ≤ file.FileSize)
    (h2 : file.FileSize = (file.Bytes.len : Int))
    (h3 : file.FileSize + (p.length : Int) < 9223372036854775808) :
    ∃ r, file.Read p = .ok r
      ∧ r.n = min (p.length : Int) (file.FileSize - file.Offset)
      ∧ r.p = ((file.Bytes.getD []).drop file.Offset.toNat).take r.n.toNat ++ p.drop r.n.toNat
      ∧ r.file = { file with Offset := file.Offset + r.n } := by
  obtain ⟨r, hr, hn, hp, hfile, _⟩ := Read_spec file p h0 h1 h2 h3
  exact ⟨r, hr, hn, hp, hfile⟩

/-- Witness of C2: reading 4 bytes at offset 1 of a 3-byte file. -/
theorem Read_copies_and_advances_witness :
    ∃ r, (BinFSFile.mk (str "f") (some [1, 2, 3]) 1 3).Read [0, 0, 0, 0] = .ok r
      ∧ r.n = min (([0, 0, 0, 0] : List Byte).length : Int) (3 - 1)
      ∧ r.p = (((some [1, 2, 3] : GoBytes).getD []).drop (1 : Int).toNat).take r.n.toNat
          ++ ([0, 0, 0, 0] : List Byte).drop r.n.toNat
      ∧ r.file = { BinFSFile.mk (str "f") (some [1, 2, 3]) 1 3 with Offset := 1 + r.n } :=
  Read_copies_and_advances (BinFSFile.mk (str "f") (some [1, 2, 3]) 1 3) [0, 0, 0, 0]
    (by decide) (by decide) (by decide) (by decide)

/-- C3. On a handle freshly opened on an entry of size `S`, any sequence of `Read` calls
with non-empty buffers runs through, the counts returned add up to at most `S`, and a
call signals end-of-file exactly when the offset is `S` as the call is made. -/
theorem readSeq_total_at_most_size (binfs : BinFS) (path : GoString) (file : BinFSFile)
    (bufs : List (List Byte))
    (hopen : binfs.innerOpen path = .ok file)
    (hne : ∀ p ∈ bufs, p ≠ [])
    (hsz : ∀ p ∈ bufs, file.FileSize + (p.length : Int) < 9223372036854775808) :
    ∃ file2 evs, readSeq file bufs = .ok (file2, evs)
      ∧ evs.length = bufs.length
      ∧ (evs.map (fun e => e.n)).sum ≤ file.FileSize
      ∧ (∀ e ∈ evs, (e.eof = true ↔ e.offsetBefore = file.FileSize)) := by
  obtain ⟨hoff, hsize⟩ := innerOpen_fresh binfs path file hopen
  obtain ⟨file2, evs, hrun, hlen, hle, hsum, _, hev⟩ :=
    readSeq_spec bufs file (by omega) (by rw [hoff, hsize]; exact Int.ofNat_nonneg _) hsize hne hsz
  refine ⟨file2, evs, hrun, hlen, ?_, hev⟩
  rw [hsum, hoff]
  omega

/-- Witness of C3: four reads with 2-byte buffers on the 5-byte entry of the scenario. -/
theorem readSeq_total_at_most_size_witness :
    ∃ file2 evs, readSeq (BinFSFile.mk (str "dir\\a.txt") (some (str "hello")) 0 5)
          [[0, 0], [0, 0], [0, 0], [0, 0]] = .ok (file2, evs)
      ∧ evs.length = ([[0, 0], [0, 0], [0, 0], [0, 0]] : List (List Byte)).length
      ∧ (evs.map (fun e => e.n)).sum ≤ 5
      ∧ (∀ e ∈ evs, (e.eof = true ↔ e.offsetBefore = 5)) :=
  readSeq_total_at_most_size (fsScenario .windows) (str "dir\\a.txt")
    (BinFSFile.mk (str "dir\\a.txt") (some (str "hello")) 0 5) [[0, 0], [0, 0], [0, 0], [0, 0]]
    (by decide) (by decide) (by decide)

/-! ## Virtual filesystem: loading and lookup -/

/-- C4, as stated, fails: after loading the scenario bundle, `ReadFile` with the path as
recorded in the archive (`dir/a.txt`) fails on either host, because `addFile` stores the
entry under `dir\a.txt`. -/
theorem ReadFile_archive_path_not_found :
    (fsScenario .windows).ReadFile (str "dir/a.txt") = .error .unableToOpen
      ∧ (fsScenario .unix).ReadFile (str "dir/a.txt") = .error .unableToOpen
      ∧ (fsScenario .windows).Contents
          = [(str "dir\\a.txt", some (str "hello")), (str "dir\\b.txt", some (str "world"))] := by
  decide

/-- C4 (amended). For entries whose paths stay distinct once every `/` is replaced by `\`,
loaded by one `addFile` call each, `ReadFile` called with an entry's path after that
replacement returns exactly that entry's bytes. -/
theorem ReadFile_returns_loaded_bytes (os : GOOS) (fs : BinFS)
    (entries : List (GoString × GoBytes))
    (hd : (entries.map (fun e => replaceSlash e.1)).Nodup)
    (e : GoString × GoBytes) (he : e ∈ entries) :
    (addFiles os fs entries).ReadFile (replaceSlash e.1) = .ok e.2 :=
  ReadFile_of_Contents _ _ _ (addFiles_Contents_mem os entries fs hd e he)

/-- Witness of C4 (amended): the scenario bundle; `dir\a.txt` reads back `hello`, and
`dir/missing.txt` is not found. -/
theorem ReadFile_returns_loaded_bytes_witness :
    (fsScenario .windows).ReadFile (str "dir\\a.txt") = .ok (some (str "hello"))
      ∧ (fsScenario .windows).ReadFile (str "dir/missing.txt") = .error .unableToOpen :=
  ⟨ReadFile_returns_loaded_bytes .windows emptyFS
      [(str "dir/a.txt", some (str "hello")), (str "dir/b.txt", some (str "world"))]
      (by decide) (str "dir/a.txt", some (str "hello")) (by decide),
    by decide⟩

/-- C5, as stated, fails: `dir` is a registered directory and no key of `Contents`, yet
`ReadFile` on it returns the `nil` slice with no error. -/
theorem ReadFile_directory_succeeds :
    mapHas (fsScenario .windows).Contents (str "dir") = false
      ∧ mapHas (fsScenario .windows).Paths (str "dir") = true
      ∧ (fsScenario .windows).ReadFile (str "dir") = .ok none := by
  decide

/-- C5 (amended). `ReadFile(path)` succeeds exactly when `path` is a key of `Contents` or of
`Paths`: it then returns `Contents[path]` for a key of `Contents` and the `nil` slice for a
path that is only a registered directory; for any other path it returns an error. -/
theorem ReadFile_succeeds_iff (binfs : BinFS) (path : GoString) :
    ((∃ bytes, binfs.ReadFile path = .ok bytes)
        ↔ (mapHas binfs.Contents path = true ∨ mapHas binfs.Paths path = true))
      ∧ binfs.ReadFile path =
          (match mapGet binfs.Contents path with
            | some bytes => .ok bytes
            | none => if mapHas binfs.Paths path then .ok none else .error .unableToOpen) := by
  unfold BinFS.ReadFile BinFS.innerOpen mapHas
  cases hc : mapGet binfs.Contents path with
  | some bytes => simp
  | none =>
    cases hp : mapGet binfs.Paths path with
    | some v => simp
    | none => simp

/-- C6, as stated, fails: after `addFile` of `a/b/c.txt` on an empty filesystem the ancestor
`a` is not in `Paths` on either host (Windows registers `a\b` only, other hosts `.` only),
and off Windows the scenario entry `dir/a.txt` does not register `dir`. -/
theorem addFile_registers_one_directory :
    mapHas (addFiles .windows emptyFS [(str "a/b/c.txt", some [])]).Contents (str "a\\b\\c.txt")
        = true
      ∧ (addFiles .windows emptyFS [(str "a/b/c.txt", some [])]).Paths = [(str "a\\b", 1)]
      ∧ mapHas (addFiles .windows emptyFS [(str "a/b/c.txt", some [])]).Paths (str "a") = false
      ∧ (addFiles .unix emptyFS [(str "a/b/c.txt", some [])]).Paths = [(str ".", 1)]
      ∧ mapHas (fsScenario .unix).Paths (str "dir") = false
      ∧ mapHas (fsScenario .windows).Paths (str "dir") = true := by
  decide

/-- C6 (amended). After any sequence of `addFile` calls on an initially empty filesystem,
for every key `p` of `Contents` the one directory `filepath.Dir(p)` of the host (when
non-empty) is present in `Paths`. -/
theorem addFiles_registers_parent (os : GOOS) (entries : List (GoString × GoBytes))
    (p : GoString) (hp : mapHas (addFiles os emptyFS entries).Contents p = true)
    (hlen : (filepathDir os p).length > 0) :
    mapHas (addFiles os emptyFS entries).Paths (filepathDir os p) = true :=
  addFiles_ParentRegistered os entries emptyFS (fun _ h _ => by cases h) p hp hlen

/-- Witness of C6 (amended): on Windows `a/b/c.txt` registers `a\b`. -/
theorem addFiles_registers_parent_witness :
    mapHas (addFiles .windows emptyFS [(str "a/b/c.txt", some [])]).Paths (str "a\\b") = true :=
  addFiles_registers_parent .windows [(str "a/b/c.txt", some [])] (str "a\\b\\c.txt")
    (by decide) (by decide)

/-- C9, as stated, fails: when the second member of the bundle is unreadable,
`initResource` returns the error but the first member stays loaded and readable, the
filesystem is marked initialized, and a repeated call reports success. -/
theorem initResource_error_keeps_entries :
    (freshFS.initResource .windows bundlePartial).2 = some (.cannotReadZipped (str "b.txt"))
      ∧ (freshFS.initResource .windows bundlePartial).1.ReadFile (str "a.txt")
          = .ok (some (str "hello"))
      ∧ (freshFS.initResource .windows bundlePartial).1.Inited = true
      ∧ ((freshFS.initResource .windows bundlePartial).1.initResource .windows bundlePartial).2
          = none := by
  decide

/-- C9 (amended). When `initResource` on a not yet initialized filesystem returns a load
error: for a missing bundle or an invalid archive `Contents` and `Paths` hold no entries,
so `Open`/`Stat`/`ReadFile` fail for every path; for an unreadable member the filesystem
holds exactly what `addFile` stored for the members that precede the first unreadable
one, and each of those (with paths distinct after normalization) stays readable. -/
theorem initResource_error_state (os : GOOS) (fs : BinFS) (bundle : Bundle) (err : LoadError)
    (hfresh : fs.Inited = false) (herr : (fs.initResource os bundle).2 = some err) :
    ((bundle = .missing ∨ bundle = .badArchive) →
        (fs.initResource os bundle).1.Contents = [] ∧ (fs.initResource os bundle).1.Paths = []
          ∧ ∀ path, (fs.initResource os bundle).1.Open path = .error .unableToOpen
            ∧ (fs.initResource os bundle).1.Stat path = .error .unableToOpen
            ∧ (fs.initResource os bundle).1.ReadFile path = .error .unableToOpen)
      ∧ (∀ files, bundle = .archive files →
          (fs.initResource os bundle).1.Contents
              = (addFiles os emptyFS (readablePart files)).Contents
            ∧ (fs.initResource os bundle).1.Paths
              = (addFiles os emptyFS (readablePart files)).Paths
            ∧ (((readablePart files).map (fun e => replaceSlash e.1)).Nodup →
                ∀ e ∈ readablePart files,
                  (fs.initResource os bundle).1.ReadFile (replaceSlash e.1) = .ok e.2)) := by
  have hstate : ((bundle = .missing ∨ bundle = .badArchive) →
        (fs.initResource os bundle).1 = emptyFS)
      ∧ (∀ files, bundle = .archive files →
          (fs.initResource os bundle).1 = addFiles os emptyFS (readablePart files)) := by
    unfold BinFS.initResource at herr ⊢
    simp only [hfresh, Bool.false_eq_true, if_false] at herr ⊢
    cases bundle with
    | missing => exact ⟨fun _ => rfl, fun files h => by cases h⟩
    | badArchive => exact ⟨fun _ => rfl, fun files h => by cases h⟩
    | archive files =>
      simp only at herr ⊢
      have hl := loadFiles_error os files _ err herr
      refine ⟨?_, ?_⟩
      · intro h
        rcases h with h | h <;> cases h
      · intro files2 h
        cases h
        exact hl
  obtain ⟨hempty, harch⟩ := hstate
  refine ⟨fun h => ?_, fun files h => ?_⟩
  · rw [hempty h]
    exact ⟨rfl, rfl, fun path => ⟨rfl, rfl, rfl⟩⟩
  · rw [harch files h]
    exact ⟨rfl, rfl, fun hd e he =>
      ReadFile_of_Contents _ _ _ (addFiles_Contents_mem os _ emptyFS hd e he)⟩

/-- Witness of C9 (amended): the bundle whose second member is unreadable keeps its
first member, `a.txt`. -/
theorem initResource_error_state_witness :
    (freshFS.initResource .windows bundlePartial).1.Contents
        = [(str "a.txt", some (str "hello"))]
      ∧ (freshFS.initResource .windows bundlePartial).1.Paths = [(str ".", 1)]
      ∧ (freshFS.initResource .windows bundlePartial).1.ReadFile (str "a.txt")
        = .ok (some (str "hello"))
      ∧ (freshFS.initResource .windows .missing).1.ReadFile (str "a.txt")
        = .error .unableToOpen :=
  have h := (initResource_error_state .windows freshFS bundlePartial
    (.cannotReadZipped (str "b.txt")) (by decide) (by decide)).2
      [(str "a.txt", .data (str "hello")), (str "b.txt", .readFails)] rfl
  have h2 := (initResource_error_state .windows freshFS .missing .resourceNotFound
    (by decide) (by decide)).1 (Or.inl rfl)
  ⟨h.1, h.2.1, h.2.2 (by decide) (str "a.txt", some (str "hello")) (by decide),
    (h2.2.2 (str "a.txt")).2.2⟩

/-! ## Process supervisor -/

theorem splitSpace_ne_nil (s : GoString) : splitSpace s ≠ [] := by
  cases s with
  | nil => simp [splitSpace]
  | cons c cs =>
    unfold splitSpace
    split
    · simp
    · split <;> simp

theorem splitSpace_intercalate (s : GoString) : List.intercalate [32] (splitSpace s) = s := by
  induction s with
  | nil => rfl
  | cons c cs ih =>
    unfold splitSpace
    cases hs : splitSpace cs with
    | nil => exact absurd hs (splitSpace_ne_nil cs)
    | cons q qs =>
      rw [hs] at ih
      by_cases hc : c = 32
      · subst hc
        simp only [if_true]
        rw [← ih]
        simp [List.intercalate, List.intersperse]
      · simp only [hc, if_false]
        rw [← ih]
        cases qs <;> simp [List.intercalate, List.intersperse]

theorem splitSpace_no_space (s : GoString) : ∀ part ∈ splitSpace s, 32 ∉ part := by
  induction s with
  | nil => intro part h; simp [splitSpace] at h; subst h; simp
  | cons c cs ih =>
    intro part h
    unfold splitSpace at h
    cases hs : splitSpace cs with
    | nil => exact absurd hs (splitSpace_ne_nil cs)
    | cons q qs =>
      rw [hs] at h ih
      by_cases hc : c = 32
      · subst hc
        simp only [if_true, List.mem_cons] at h
        rcases h with rfl | h
        · simp
        · exact ih part (List.mem_cons.mpr h)
      · simp only [hc, if_false, List.mem_cons] at h
        rcases h with rfl | h
        · have hq := ih q (List.mem_cons_self _ _)
          intro hmem
          rcases List.mem_cons.mp hmem with h32 | h32
          · exact hc h32.symm
          · exact hq h32
        · exact ih part (List.mem_cons_of_mem _ h)

theorem splitSpace_length (s : GoString) : (splitSpace s).length = s.count 32 + 1 := by
  induction s with
  | nil => rfl
  | cons c cs ih =>
    unfold splitSpace
    cases hs : splitSpace cs with
    | nil => exact absurd hs (splitSpace_ne_nil cs)
    | cons q qs =>
      rw [hs] at ih
      by_cases hc : c = 32
      · subst hc
        simp only [if_true, List.length_cons, List.count_cons_self] at ih ⊢
        omega
      · have hc2 : ¬ (c == 32) = true := by simpa using hc
        simp only [hc, if_false, List.length_cons, List.count_cons, hc2, Bool.false_eq_true]
          at ih ⊢
        omega

/-- C7. With the unkillable record visited first, `terminateAllCommands` returns at once:
the killable record `B` is neither killed nor removed. Visited in the other order, `B` is
removed. With every kill working, both records go and the result is `true`. -/
theorem terminateAll_stops_at_first_failure :
    terminateAllCommands killFailsPid1 regTwo = .ok (regTwo, false)
      ∧ killFailsPid1 { Pid := 2 } = false
      ∧ mapHas regTwo (str "B") = true
      ∧ terminateAllCommands killFailsPid1 regTwo.reverse = .ok (regTwo.take 1, false)
      ∧ terminateAllCommands killAlwaysWorks regTwo = .ok ([], true) :=
  ⟨by decide, by decide, by decide, by decide, by decide⟩

/-- C8. A synchronous `startCommand` whose launch fails leaves a record with no process
(so does an asynchronous one until its goroutine has started the process);
`terminateCommand` on that identifier dereferences the `nil` process and aborts, and so
does `terminateAllCommands`. An absent identifier gives `false`. -/
theorem terminateCommand_aborts_without_process :
    startCommand [] (str "nosuchprogram") (str ".") false (str "id1") .startFailed
        = .ok (regFailedLaunch, str "id1", true)
      ∧ startCommand [] (str "nosuchprogram") (str ".") true (str "id1") .startFailed
        = .ok (regFailedLaunch, str "id1", false)
      ∧ terminateCommand killAlwaysWorks regFailedLaunch (str "id1") = .error .nilDeref
      ∧ terminateAllCommands killAlwaysWorks regFailedLaunch = .error .nilDeref
      ∧ terminateCommand killAlwaysWorks regFailedLaunch (str "id2")
        = .ok (regFailedLaunch, false) :=
  ⟨by decide, by decide, by decide, by decide, by decide⟩

/-- C10, as stated, fails: `startCommand` splits on the single byte 32 only, so two spaces
in a row give an empty argument and a tab stays inside its argument. -/
theorem startCommand_keeps_empty_arguments :
    (startCommand [] (str "ls  -l") (str ".") true (str "id1") .startFailed).map
        (fun r => (mapGet r.1 (str "id1")).map (fun cmd => cmd.Args))
        = .ok (some [str "ls", str "", str "-l"])
      ∧ (startCommand [] (str "ls\t-l") (str ".") true (str "id1") .startFailed).map
        (fun r => (mapGet r.1 (str "id1")).map (fun cmd => cmd.Args))
        = .ok (some [str "ls\t-l"]) := by
  decide

/-- C10 (amended). For every command line, `startCommand` registers under its identifier
the command whose executable and arguments are the segments of the command line between
consecutive space bytes (32): joined by single spaces they give the command line back,
none holds a space, and there is one more segment than there are spaces, so two spaces
in a row give an empty argument and no other whitespace byte separates. -/
theorem startCommand_splits_on_each_space (reg : Registry) (command dir : GoString)
    (async : Bool) (cmdID : GoString) (run : RunOutcome) :
    (∃ reg2 failed cmd, startCommand reg command dir async cmdID run = .ok (reg2, cmdID, failed)
        ∧ mapGet reg2 cmdID = some cmd ∧ cmd.Args = splitSpace command ∧ cmd.Dir = dir)
      ∧ List.intercalate [32] (splitSpace command) = command
      ∧ (∀ part ∈ splitSpace command, 32 ∉ part)
      ∧ (splitSpace command).length = command.count 32 + 1 := by
  refine ⟨?_, splitSpace_intercalate command, splitSpace_no_space command,
    splitSpace_length command⟩
  unfold startCommand
  cases hs : splitSpace command with
  | nil => exact absurd hs (splitSpace_ne_nil command)
  | cons name args =>
    cases async with
    | true =>
      exact ⟨_, _, _, rfl, mapGet_mapSet_same _ _ _, rfl, rfl⟩
    | false =>
      simp only [Bool.false_eq_true, if_false, executeCmd, mapHas, mapGet_mapSet_same,
        Option.isSome_some, if_true]
      refine ⟨_, _, _, rfl, mapGet_mapSet_same _ _ _, ?_, ?_⟩
      · cases run <;> rfl
      · cases run <;> rfl

end BinServer
